import Mathlib

/-!
Verification of the subgraph-isomorphism search engine of the graphs
repository (packages graphs and iso), against its natural-language
specification.

The Go code is shallowly embedded:

* Go maps become association lists (keys kept unique by construction);
  iteration order of a map is modelled by the list order.
* Go slices become lists.
* dot.Node pointers become node names; following a pointer becomes a
  name lookup in the graph (total on well-formed graphs, whose adjacency
  lists only mention nodes of the graph).
* Unbounded recursion (findCandidates, isIsomorphism) is modelled with
  an explicit fuel argument; a result of none means the fuel was
  exhausted.
* The error values built with errutil.Newf become inductive error
  values carrying the same data that the Go code formats into the
  message.
* panic is modelled as an Except.error distinct from ordinary errors.
-/

set_option autoImplicit false

namespace GraphsRepo

/-! ## Association-list maps (shallow embedding of Go maps) -/

/-- Lookup in an association list; models a Go map read with comma-ok. -/
def lookupM {κ α : Type} [BEq κ] (m : List (κ × α)) (k : κ) : Option α :=
  (m.find? (fun p => p.1 == k)).map Prod.snd

/-- Total lookup defaulting to the zero value, as a Go map read without
comma-ok on string values. -/
def lookupD (m : List (String × String)) (k : String) : String :=
  (lookupM m k).getD ""

/-- Insert or overwrite a key; models a Go map assignment. -/
def insertM {κ α : Type} [BEq κ] : List (κ × α) → κ → α → List (κ × α)
  | [], k, v => [(k, v)]
  | (k', v') :: rest, k, v =>
    if k' == k then (k, v) :: rest else (k', v') :: insertM rest k v

/-- Remove a key; models the Go built-in delete. -/
def eraseM {κ α : Type} [BEq κ] : List (κ × α) → κ → List (κ × α)
  | [], _ => []
  | (k', v') :: rest, k => if k' == k then rest else (k', v') :: eraseM rest k

/-- The keys of an association-list map. -/
def keysM {κ α : Type} (m : List (κ × α)) : List κ := m.map Prod.fst

/-- The values of an association-list map. -/
def valuesM {κ α : Type} (m : List (κ × α)) : List α := m.map Prod.snd

/-- Add an element to a set represented as a duplicate-free list; models
a Go set insertion (set of map keys). -/
def insertS (s : List String) (x : String) : List String :=
  if s.contains x then s else s ++ [x]

/-! ## Graph model (package dot, as consumed by the engine)

A node has a name, a predecessor list and a successor list (adjacency
by name, standing for the pointer lists of dot.Node). A graph is its
node list in stable stored order; the name index Nodes.Lookup is
modelled by searching the node list, which bakes in the dot invariant
that the index and the list agree. -/

structure Node where
  name : String
  preds : List String
  succs : List String
deriving DecidableEq, Repr

structure Graph where
  nodes : List Node
deriving DecidableEq, Repr

/-- Name to node lookup; models graph.Nodes.Lookup. -/
def Graph.lookup (g : Graph) (name : String) : Option Node :=
  g.nodes.find? (fun n => n.name == name)

/-- A subgraph: a graph plus designated entry and exit node names;
models graphs.SubGraph with its Entry and Exit accessors. -/
structure SubGraph where
  toGraph : Graph
  entry : String
  exit : String
deriving DecidableEq, Repr

/-- Well-formedness of a graph as stated by the data-model invariants of
the specification: node names are distinct, every node's name looks
itself up, and adjacency lists only reference nodes of the graph. -/
def Graph.WF (g : Graph) : Prop :=
  (g.nodes.map Node.name).Nodup ∧
  (∀ n ∈ g.nodes, ∀ p ∈ n.preds, ∃ n' ∈ g.nodes, n'.name = p) ∧
  (∀ n ∈ g.nodes, ∀ s ∈ n.succs, ∃ n' ∈ g.nodes, n'.name = s)

/-! ## Validator (iso/valid.go) -/

/-- hasDup returns true if the map contains a duplicate value
(iso/valid.go); a value is duplicated when it occurs again later in the
iteration. -/
def hasDup : List (String × String) → Bool
  | [] => false
  | (_, v) :: rest => rest.any (fun p => p.2 == v) || hasDup rest

/-- The predecessor check of IsValid for one mapped pair: equal
predecessor counts and every sub predecessor is matched, under the
mapping, by some graph predecessor. -/
def checkPreds (m : List (String × String)) (s g : Node) : Bool :=
  s.preds.length == g.preds.length &&
  s.preds.all (fun sp => g.preds.any (fun gp => gp == lookupD m sp))

/-- The successor check of IsValid for one mapped pair. -/
def checkSuccs (m : List (String × String)) (s g : Node) : Bool :=
  s.succs.length == g.succs.length &&
  s.succs.all (fun ss => g.succs.any (fun gs => gs == lookupD m ss))

/-- The per-name body of the IsValid loop: resolve the sub node and the
graph node, then run the predecessor check unless the sub node is the
entry and the successor check unless it is the exit. -/
def validAt (host : Graph) (sub : SubGraph) (m : List (String × String))
    (sname : String) : Bool :=
  match sub.toGraph.lookup sname with
  | none => false
  | some s =>
    match host.lookup (lookupD m sname) with
    | none => false
    | some g =>
      (if s.name == sub.entry then true else checkPreds m s g) &&
      (if s.name == sub.exit then true else checkSuccs m s g)

/-- Lexicographic comparison of char lists by code point; the order
used to sort the key names. -/
def strLeGo : List Char → List Char → Bool
  | [], _ => true
  | _ :: _, [] => false
  | c₁ :: r₁, c₂ :: r₂ =>
    if c₁.val < c₂.val then true
    else if c₂.val < c₁.val then false
    else strLeGo r₁ r₂

/-- Lexicographic string comparison by code point, standing for the
order of sort.Strings. -/
def strLe (a b : String) : Bool := strLeGo a.data b.data

/-- IsValid (iso/valid.go): m is a valid mapping for an isomorphism of
sub in host, ignoring predecessors of the entry and successors of the
exit. The keys are iterated in sorted order as in the source. -/
def IsValid (host : Graph) (sub : SubGraph) (m : List (String × String)) : Bool :=
  if m.length != sub.toGraph.nodes.length then false
  else if hasDup m then false
  else ((keysM m).insertionSort (fun a b => strLe a b = true)).all (validAt host sub m)

/-! ## Recursive matcher (solve_old.go, name-based graphs package) -/

/-- The mutable state threaded through isIsomorphism: the partial
mapping m and the visited set of (sub name, graph name) pairs. -/
structure IsoState where
  m : List (String × String)
  visited : List (String × String)
deriving DecidableEq, Repr

/-- The final check at the end of isIsomorphism (solve_old.go): the
mapping is complete and maps predecessors and successors correctly;
unlike IsValid it performs no duplicate check on the range. -/
def finalCheck (host : Graph) (sub : SubGraph) (m : List (String × String)) : Bool :=
  m.all (fun p => validAt host sub m p.1)

/-- All (sub successor, graph successor) name pairs, in loop order
(outer loop over sub successors, inner loop over graph successors). -/
def pairList (ssuccs gsuccs : List String) : List (String × String) :=
  ssuccs.flatMap (fun sn => gsuccs.map (fun gn => (sn, gn)))

/-- The double successor loop of isIsomorphism, parameterized by the
recursive call (the matcher one fuel level down): tentatively extend the
mapping, skip visited pairs (keeping the tentative extension), recurse
on fresh pairs, and undo the extension when the recursion fails. -/
def isoPairs (host : Graph) (sub : SubGraph)
    (rec : Node → Node → IsoState → Option (Bool × IsoState)) :
    List (String × String) → IsoState → Option (Bool × IsoState)
  | [], st => some (false, st)
  | (sn, gn) :: rest, st =>
    let st1 := if (lookupM st.m sn).isSome then st
               else { st with m := insertM st.m sn gn }
    if st1.visited.contains (sn, gn) then
      isoPairs host sub rec rest st1
    else
      let st2 := { st1 with visited := st1.visited ++ [(sn, gn)] }
      match sub.toGraph.lookup sn, host.lookup gn with
      | some snode, some gnode =>
        match rec gnode snode st2 with
        | none => none
        | some (true, st3) => some (true, st3)
        | some (false, st3) =>
          isoPairs host sub rec rest { st3 with m := eraseM st3.m sn }
      | _, _ => isoPairs host sub rec rest st2

/-- isIsomorphism (solve_old.go) with explicit fuel: returns none when
the fuel runs out, otherwise the boolean result together with the state
as mutated by the call. -/
def isIsoF (host : Graph) (sub : SubGraph) :
    Nat → Node → Node → IsoState → Option (Bool × IsoState)
  | 0 => fun _ _ _ => none
  | fuel' + 1 => fun g s st =>
    if st.m.length == sub.toGraph.nodes.length then
      some (finalCheck host sub st.m, st)
    else
      let st1opt : Option IsoState :=
        if s.name == sub.entry then
          some (if (lookupM st.m s.name).isSome then st
                else { st with m := insertM st.m s.name g.name })
        else
          if s.preds.length == g.preds.length then some st else none
      match st1opt with
      | none => some (false, st)
      | some st1 =>
        if s.name == sub.exit then
          some (if st1.m.length == sub.toGraph.nodes.length
                then finalCheck host sub st1.m else false, st1)
        else
          if s.succs.length != g.succs.length then some (false, st1)
          else
            match isoPairs host sub (isIsoF host sub fuel')
                (pairList s.succs g.succs) st1 with
            | none => none
            | some (true, st2) => some (true, st2)
            | some (false, st2) =>
              some (if st2.m.length == sub.toGraph.nodes.length
                    then finalCheck host sub st2.m else false, st2)

/-- Isomorphism (solve_old.go, name-based): resolve the entry in the
host and the subgraph entry, then run the recursive matcher from that
pair with an empty mapping and empty visited set. The outer Option is
the fuel, the inner Option is the (m, ok) result: some m for ok = true
and none for ok = false. -/
def IsomorphismN (fuel : Nat) (host : Graph) (entry : String) (sub : SubGraph) :
    Option (Option (List (String × String))) :=
  match host.lookup entry with
  | none => some none
  | some g =>
    match sub.toGraph.lookup sub.entry with
    | none => some none
    | some s =>
      match isIsoF host sub fuel g s ⟨[], []⟩ with
      | none => none
      | some (true, st) => some (some st.m)
      | some (false, _) => some none

/-- The loop body of Search (solve_old.go): walk the host node list in
stored order and return the first successful mapping. -/
def searchGo (fuel : Nat) (host : Graph) (sub : SubGraph) :
    List Node → Option (Option (List (String × String)))
  | [] => some none
  | n :: rest =>
    match IsomorphismN fuel host n.name sub with
    | none => none
    | some (some m) => some (some m)
    | some none => searchGo fuel host sub rest

/-- Search (solve_old.go): iterate the host nodes in their stable
stored order, invoking Isomorphism on each node name. -/
def SearchF (fuel : Nat) (host : Graph) (sub : SubGraph) :
    Option (Option (List (String × String))) :=
  searchGo fuel host sub host.nodes

/-! ## Equation solver (iso/solve.go) -/

/-- The candidate table C: sub node name to the set of host node name
candidates, the sets kept duplicate-free. -/
abbrev CMap := List (String × List String)

/-- Equation: the node pair candidates c and the known node pairs m. -/
structure Equation where
  c : CMap
  m : List (String × String)
deriving DecidableEq, Repr

/-- isPotential (iso/solve.go): the graph node g is a potential
candidate for the sub node s when the predecessor counts agree (unless s
is the entry) and the successor counts agree (unless s is the exit). -/
def isPotential (g s : Node) (sub : SubGraph) : Bool :=
  (s.name == sub.entry || g.preds.length == s.preds.length) &&
  (s.name == sub.exit || g.succs.length == s.succs.length)

/-- Error values of Candidates (iso/solve.go), carrying the data the
source formats into the errutil message. -/
inductive CandErr where
  | entryMissing (entry : String)
  | subEntryMissing (entry : String)
  | entryMismatch (gname : String) (expectedSuccs actualSuccs : Nat)
  | incomplete (expectedEntries actualEntries : Nat)
deriving DecidableEq, Repr

/-- The double successor loop of findCandidates, parameterized by the
recursive call one fuel level down. -/
def candPairs (host : Graph) (sub : SubGraph)
    (rec : Node → Node → CMap → Option CMap) :
    List (String × String) → CMap → Option CMap
  | [], c => some c
  | (sn, gn) :: rest, c =>
    match sub.toGraph.lookup sn, host.lookup gn with
    | some snode, some gnode =>
      (rec gnode snode c).bind (fun c' => candPairs host sub rec rest c')
    | _, _ => candPairs host sub rec rest c

/-- findCandidates (iso/solve.go, lines 53-83) with explicit fuel:
prune non-potential pairs, stop on a pair already recorded in C, record
the pair (the entry node only on first visit), then recurse over all
successor pairs. Returns none when the fuel runs out. -/
def findCandF (host : Graph) (sub : SubGraph) :
    Nat → Node → Node → CMap → Option CMap
  | 0 => fun _ _ _ => none
  | fuel + 1 => fun g s c =>
    if !(isPotential g s sub) then some c
    else if (lookupM c s.name).elim false (fun set => set.contains g.name) then
      some c
    else
      let c1 :=
        match lookupM c s.name with
        | none => insertM c s.name [g.name]
        | some set =>
          if s.name == sub.entry then c else insertM c s.name (insertS set g.name)
      candPairs host sub (findCandF host sub fuel) (pairList s.succs g.succs) c1

/-- Candidates (iso/solve.go, lines 24-49) with explicit fuel: the
entry lookups, the isPotential degree test on the entry pair, the
candidate walk, and the completeness check on the resulting table. -/
def Candidates (fuel : Nat) (host : Graph) (entry : String) (sub : SubGraph) :
    Option (Except CandErr Equation) :=
  match host.lookup entry with
  | none => some (.error (.entryMissing entry))
  | some g =>
    match sub.toGraph.lookup sub.entry with
    | none => some (.error (.subEntryMissing sub.entry))
    | some s =>
      if !(isPotential g s sub) then
        some (.error (.entryMismatch g.name s.succs.length g.succs.length))
      else
        match findCandF host sub fuel g s [] with
        | none => none
        | some c =>
          if c.length != sub.toGraph.nodes.length then
            some (.error (.incomplete sub.toGraph.nodes.length c.length))
          else
            some (.ok ⟨c, []⟩)

/-- Error values of SetPair (iso/solve.go), carrying the data the
source formats into the errutil message. -/
inductive PairErr where
  | duplicateTarget (key sname gname : String)
  | noCandidates (sname : String)
deriving DecidableEq, Repr

/-- getKey (iso/solve.go): the first key in m which maps to val. -/
def getKey (m : List (String × String)) (val : String) : Option String :=
  (m.find? (fun p => p.2 == val)).map Prod.fst

/-- The removal loop of SetPair: delete gname from each candidate set
in iteration order, stopping with the offending key as soon as a set
becomes empty. Returns the table as mutated so far. -/
def removeCand : CMap → String → CMap × Option String
  | [], _ => ([], none)
  | (k, set) :: rest, gname =>
    let set' := set.filter (fun x => x != gname)
    if set'.length == 0 then ((k, set') :: rest, some k)
    else
      let r := removeCand rest gname
      ((k, set') :: r.1, r.2)

/-- SetPair (iso/solve.go, lines 410-430): fail on a duplicate target
leaving the equation unchanged; otherwise move the pair from c to m and
delete gname from the remaining candidate sets, failing as soon as a
set becomes empty. Returns the equation as mutated by the call. -/
def SetPair (eq : Equation) (sname gname : String) : Equation × Option PairErr :=
  match getKey eq.m gname with
  | some key => (eq, some (.duplicateTarget key sname gname))
  | none =>
    let m' := insertM eq.m sname gname
    let c1 := eraseM eq.c sname
    let r := removeCand c1 gname
    (⟨r.1, m'⟩, r.2.map .noCandidates)

/-- Dup (iso/solve.go): a deep copy of the equation. On the
association-list embedding a copy is the value itself. -/
def Equation.Dup (eq : Equation) : Equation := ⟨eq.c, eq.m⟩

/-- The panic values of pop (iso/solve.go). -/
inductive GoPanic where
  | invalidLen (got : Nat)
  | unreachable
deriving DecidableEq, Repr

/-- pop (iso/solve.go, lines 443-452): panics unless the set has
exactly one key, then returns that key. -/
def pop (m : List String) : Except GoPanic String :=
  if m.length != 1 then .error (.invalidLen m.length)
  else
    match m with
    | key :: _ => .ok key
    | [] => .error .unreachable

/-- The scan loop of SolveUnique over the candidate table: find the
first key with exactly one candidate, pop it and call SetPair. The
result is (ok, equation, error): ok is true when a unique pair was
moved, and a pop panic surfaces as Except.error. -/
def solveUniqueGo (eq : Equation) : CMap → Except GoPanic (Bool × Equation × Option PairErr)
  | [] => .ok (false, eq, none)
  | (k, set) :: rest =>
    if set.length == 1 then
      match pop set with
      | .error p => .error p
      | .ok gname =>
        let r := SetPair eq k gname
        match r.2 with
        | some err => .ok (false, r.1, some err)
        | none => .ok (true, r.1, none)
    else solveUniqueGo eq rest

/-- SolveUnique (iso/solve.go, lines 392-405): scan c for a key with
exactly one candidate and solve it with SetPair. -/
def SolveUnique (eq : Equation) : Except GoPanic (Bool × Equation × Option PairErr) :=
  solveUniqueGo eq eq.c

/-- Error value of easiest (iso/solve.go), carrying the minimum found
(-1 when the table is empty, as in the source). -/
inductive BranchErr where
  | tooFewCandidates (got : Int)
deriving DecidableEq, Repr

/-- The scan loop of easiest: track the smallest candidate-set size and
its key; the accumulator none models the min = -1 sentinel. -/
def easiestGo : CMap → Option (Nat × String) → Option (Nat × String)
  | [], acc => acc
  | (k, set) :: rest, acc =>
    match acc with
    | none => easiestGo rest (some (set.length, k))
    | some (min, best) =>
      if set.length < min then easiestGo rest (some (set.length, k))
      else easiestGo rest (some (min, best))

/-- easiest (iso/solve.go, lines 373-386): the key of the node pair
with the fewest candidates; fails when the minimum is below two (which
also covers an empty table, where the min sentinel -1 remains). -/
def easiest (c : CMap) : Except BranchErr String :=
  match easiestGo c none with
  | none => .error (.tooFewCandidates (-1))
  | some (min, best) =>
    if (min : Int) < 2 then .error (.tooFewCandidates min) else .ok best

/-! ## Index-based matcher (graphs.go)

The root graphs.go holds a second copy of the recursive matcher keyed
by node index instead of node name. Its entry parameter is a Go int
used to index graph.Nodes.Nodes directly, with no bounds check. -/

structure NodeI where
  index : Nat
  preds : List Nat
  succs : List Nat
deriving DecidableEq, Repr

structure GraphI where
  nodes : List NodeI
deriving DecidableEq, Repr

/-- Index to node resolution, standing for following a dot.Node pointer
in the index-keyed arena (on well-formed graphs node.Index is the
position in the node list). -/
def GraphI.lookupIdx (g : GraphI) (i : Nat) : Option NodeI :=
  g.nodes.find? (fun n => n.index == i)

/-- SubGraph of graphs.go: entry and exit held as node indices. -/
structure SubGraphI where
  toGraph : GraphI
  entry : Nat
  exit : Nat
deriving DecidableEq, Repr

/-- State of the index-based isIsomorphism. -/
structure IsoStateI where
  m : List (Nat × Nat)
  visited : List (Nat × Nat)
deriving DecidableEq, Repr

/-- The predecessor check of the final validation in graphs.go. -/
def checkPredsI (m : List (Nat × Nat)) (s g : NodeI) : Bool :=
  s.preds.length == g.preds.length &&
  s.preds.all (fun sp => g.preds.any (fun gp => gp == (lookupM m sp).getD 0))

/-- The successor check of the final validation in graphs.go. -/
def checkSuccsI (m : List (Nat × Nat)) (s g : NodeI) : Bool :=
  s.succs.length == g.succs.length &&
  s.succs.all (fun ss => g.succs.any (fun gs => gs == (lookupM m ss).getD 0))

/-- The final validation at the end of the index-based isIsomorphism. -/
def finalCheckI (host : GraphI) (sub : SubGraphI) (m : List (Nat × Nat)) : Bool :=
  m.all (fun p =>
    match sub.toGraph.lookupIdx p.1 with
    | none => false
    | some s =>
      match host.lookupIdx p.2 with
      | none => false
      | some g =>
        (if s.index == sub.entry then true else checkPredsI m s g) &&
        (if s.index == sub.exit then true else checkSuccsI m s g))

/-- All (sub successor, graph successor) index pairs in loop order. -/
def pairListI (ssuccs gsuccs : List Nat) : List (Nat × Nat) :=
  ssuccs.flatMap (fun sn => gsuccs.map (fun gn => (sn, gn)))

/-- The double successor loop of the index-based isIsomorphism. -/
def isoPairsI (host : GraphI) (sub : SubGraphI)
    (rec : NodeI → NodeI → IsoStateI → Option (Bool × IsoStateI)) :
    List (Nat × Nat) → IsoStateI → Option (Bool × IsoStateI)
  | [], st => some (false, st)
  | (sn, gn) :: rest, st =>
    let st1 := if (lookupM st.m sn).isSome then st
               else { st with m := insertM st.m sn gn }
    if st1.visited.contains (sn, gn) then
      isoPairsI host sub rec rest st1
    else
      let st2 := { st1 with visited := st1.visited ++ [(sn, gn)] }
      match sub.toGraph.lookupIdx sn, host.lookupIdx gn with
      | some snode, some gnode =>
        match rec gnode snode st2 with
        | none => none
        | some (true, st3) => some (true, st3)
        | some (false, st3) =>
          isoPairsI host sub rec rest { st3 with m := eraseM st3.m sn }
      | _, _ => isoPairsI host sub rec rest st2

/-- The index-based isIsomorphism (graphs.go) with explicit fuel. -/
def isIsoFI (host : GraphI) (sub : SubGraphI) :
    Nat → NodeI → NodeI → IsoStateI → Option (Bool × IsoStateI)
  | 0 => fun _ _ _ => none
  | fuel' + 1 => fun g s st =>
    if st.m.length == sub.toGraph.nodes.length then
      some (finalCheckI host sub st.m, st)
    else
      let st1opt : Option IsoStateI :=
        if s.index == sub.entry then
          some (if (lookupM st.m s.index).isSome then st
                else { st with m := insertM st.m s.index g.index })
        else
          if s.preds.length == g.preds.length then some st else none
      match st1opt with
      | none => some (false, st)
      | some st1 =>
        if s.index == sub.exit then
          some (if st1.m.length == sub.toGraph.nodes.length
                then finalCheckI host sub st1.m else false, st1)
        else
          if s.succs.length != g.succs.length then some (false, st1)
          else
            match isoPairsI host sub (isIsoFI host sub fuel')
                (pairListI s.succs g.succs) st1 with
            | none => none
            | some (true, st2) => some (true, st2)
            | some (false, st2) =>
              some (if st2.m.length == sub.toGraph.nodes.length
                    then finalCheckI host sub st2.m else false, st2)

/-- A Go runtime panic caused by a slice access out of range. -/
inductive RuntimePanic where
  | indexOutOfRange
deriving DecidableEq, Repr

/-- Isomorphism (graphs.go, index-based): the entry int indexes
graph.Nodes.Nodes with no prior bounds check, so an entry that is
negative or at least the node count is a runtime panic; likewise for
the subgraph entry index. In range, the recursive matcher runs from the
entry pair. -/
def IsomorphismI (fuel : Nat) (host : GraphI) (entry : Int) (sub : SubGraphI) :
    Option (Except RuntimePanic (Option (List (Nat × Nat)))) :=
  if h : 0 ≤ entry ∧ entry.toNat < host.nodes.length then
    let g := host.nodes.get ⟨entry.toNat, h.2⟩
    if h2 : sub.entry < sub.toGraph.nodes.length then
      let s := sub.toGraph.nodes.get ⟨sub.entry, h2⟩
      match isIsoFI host sub fuel g s ⟨[], []⟩ with
      | none => none
      | some (true, st) => some (.ok (some st.m))
      | some (false, _) => some (.ok none)
    else some (.error .indexOutOfRange)
  else some (.error .indexOutOfRange)

/-! ## Specification-side predicates

These definitions follow the wording of the specification (and of the
claims derived from it); the theorems below compare them with the
definitions embedded from the source. -/

/-- The restricted-isomorphism contract of the validator as the
specification states it: the mapping is total on the subgraph nodes,
its range has no duplicates, every name occurring in it resolves, and
each mapped pair satisfies the predecessor check (skipped for the
entry) and the successor check (skipped for the exit). -/
def SpecIsValid (host : Graph) (sub : SubGraph) (m : List (String × String)) : Prop :=
  m.length = sub.toGraph.nodes.length ∧
  (valuesM m).Nodup ∧
  ∀ p ∈ m, ∃ s, sub.toGraph.lookup p.1 = some s ∧
    ∃ g, host.lookup p.2 = some g ∧
      (p.1 ≠ sub.entry → s.preds.length = g.preds.length ∧
        ∀ sp ∈ s.preds, ∃ gp ∈ g.preds, lookupM m sp = some gp) ∧
      (p.1 ≠ sub.exit → s.succs.length = g.succs.length ∧
        ∀ ss ∈ s.succs, ∃ gs ∈ g.succs, lookupM m ss = some gs)

/-- The error contract of Candidates as the claim states it: an error
is returned exactly when the entry name does not resolve in the host,
the subgraph entry does not resolve in the subgraph, the host entry
fails the isPotential test (reporting expected versus actual successor
counts), or the walk leaves the candidate table with the wrong number
of entries (reporting expected versus actual counts); in every other
case the equation is returned. -/
def CandidatesContract (fuel : Nat) (host : Graph) (entry : String)
    (sub : SubGraph) (r : Except CandErr Equation) : Prop :=
  (host.lookup entry = none ∧ r = .error (.entryMissing entry)) ∨
  (∃ g, host.lookup entry = some g ∧ sub.toGraph.lookup sub.entry = none ∧
    r = .error (.subEntryMissing sub.entry)) ∨
  (∃ g s, host.lookup entry = some g ∧ sub.toGraph.lookup sub.entry = some s ∧
    isPotential g s sub = false ∧
    r = .error (.entryMismatch g.name s.succs.length g.succs.length)) ∨
  (∃ g s c, host.lookup entry = some g ∧ sub.toGraph.lookup sub.entry = some s ∧
    isPotential g s sub = true ∧ findCandF host sub fuel g s [] = some c ∧
    c.length ≠ sub.toGraph.nodes.length ∧
    r = .error (.incomplete sub.toGraph.nodes.length c.length)) ∨
  (∃ g s c, host.lookup entry = some g ∧ sub.toGraph.lookup sub.entry = some s ∧
    isPotential g s sub = true ∧ findCandF host sub fuel g s [] = some c ∧
    c.length = sub.toGraph.nodes.length ∧ r = .ok ⟨c, []⟩)

/-! ## Concrete inputs used by the counterexamples and witnesses -/

/-- A host graph with a single node X carrying a self-loop. -/
def hostLoop : Graph := ⟨[⟨"X", ["X"], ["X"]⟩]⟩

/-- The straight-line subgraph A to B to C, entry A, exit C. -/
def subList3 : SubGraph :=
  ⟨⟨[⟨"A", [], ["B"]⟩, ⟨"B", ["A"], ["C"]⟩, ⟨"C", ["B"], []⟩]⟩, "A", "C"⟩

/-- The duplicate-range mapping the recursive matcher returns on
(hostLoop, subList3) from entry X. -/
def mDup : List (String × String) := [("A", "X"), ("B", "X"), ("C", "X")]

/-- A host on which the candidate walk of solve.go diverges: X has a
self-loop and an edge to Y; Y has a self-loop and an edge to Z. -/
def hostCyc : Graph :=
  ⟨[⟨"X", ["X"], ["X", "Y"]⟩, ⟨"Y", ["X", "Y"], ["Y", "Z"]⟩, ⟨"Z", ["Y"], []⟩]⟩

/-- A subgraph whose entry has a back-edge onto itself: A loops to A
and steps to B; entry A, exit B. -/
def subCyc : SubGraph :=
  ⟨⟨[⟨"A", ["A"], ["A", "B"]⟩, ⟨"B", ["A"], []⟩]⟩, "A", "B"⟩

/-- The node X of hostCyc. -/
def nodeXC : Node := ⟨"X", ["X"], ["X", "Y"]⟩

/-- The node Y of hostCyc. -/
def nodeYC : Node := ⟨"Y", ["X", "Y"], ["Y", "Z"]⟩

/-- The entry node A of subCyc. -/
def nodeAC : Node := ⟨"A", ["A"], ["A", "B"]⟩

/-- The candidate table after the first findCandidates step on
(hostCyc, subCyc): the entry pair A to X has been recorded. -/
def cInit : CMap := [("A", ["X"])]

/-- An equation on which SetPair(s, g) empties the candidate set of a
while a later set b still holds g. -/
def eqDupDemo : Equation :=
  ⟨[("s", ["g", "h"]), ("a", ["g"]), ("b", ["g", "k"])], []⟩

/-- The two-node list subgraph A to B, entry A, exit B. -/
def subPair : SubGraph := ⟨⟨[⟨"A", [], ["B"]⟩, ⟨"B", ["A"], []⟩]⟩, "A", "B"⟩

/-- A host with an isolated node N followed by two disjoint edges
P to Q and R to S; the first match of subPair in stored order is at P. -/
def hostPQR : Graph :=
  ⟨[⟨"N", [], []⟩, ⟨"P", [], ["Q"]⟩, ⟨"Q", ["P"], []⟩, ⟨"R", [], ["S"]⟩, ⟨"S", ["R"], []⟩]⟩

/-- The if_else diamond: A branches to B and C which join in D;
entry A, exit D. -/
def subIf : SubGraph :=
  ⟨⟨[⟨"A", [], ["B", "C"]⟩, ⟨"B", ["A"], ["D"]⟩, ⟨"C", ["A"], ["D"]⟩,
     ⟨"D", ["B", "C"], []⟩]⟩, "A", "D"⟩

/-- The identity mapping on the diamond. -/
def mId : List (String × String) := [("A", "A"), ("B", "B"), ("C", "C"), ("D", "D")]

/-! ## C1: mappings returned by the recursive matcher versus IsValid -/

/-- C1: the claim fails on the code. On the host with the single
self-looping node X and the straight-line subgraph A to B to C, the
recursive matcher Isomorphism succeeds and returns the mapping that
sends A, B and C all to X; its range repeats X, so IsValid rejects it.
The matcher's final check has no duplicate test (a TODO in the source
admits it is missing), so the returned mapping violates the stated
invariant. -/
theorem isomorphism_can_return_invalid_mapping :
    IsomorphismN 20 hostLoop "X" subList3 = some (some mDup) ∧
    IsValid hostLoop subList3 mDup = false ∧
    hasDup mDup = true := by decide

/-! ## C8: entry handling of the two Isomorphism variants -/

/-- C8: the index-based Isomorphism of graphs.go performs no bounds
check on its entry parameter: every entry that is negative or at least
the host node count panics with an index-out-of-range fault, while the
name-based variant of solve_old.go returns a failure value for an
unknown entry name. -/
theorem isomorphism_entry_bounds (fuel : Nat) (hostI : GraphI) (entryI : Int)
    (subI : SubGraphI) (hostN : Graph) (entryN : String) (subN : SubGraph)
    (hI : entryI < 0 ∨ (hostI.nodes.length : Int) ≤ entryI)
    (hN : hostN.lookup entryN = none) :
    IsomorphismI fuel hostI entryI subI = some (.error .indexOutOfRange) ∧
    IsomorphismN fuel hostN entryN subN = some none := by
  constructor
  · have hc : ¬(0 ≤ entryI ∧ entryI.toNat < hostI.nodes.length) := by omega
    rw [IsomorphismI, dif_neg hc]
  · unfold IsomorphismN
    rw [hN]

/-- Witness for C8 at fuel 5: the empty host with entry -1 panics, and
the name-based matcher returns none for the absent entry name Q. -/
theorem isomorphism_entry_bounds_witness :
    IsomorphismI 5 ⟨[]⟩ (-1) ⟨⟨[]⟩, 0, 0⟩ = some (.error .indexOutOfRange) ∧
    IsomorphismN 5 hostLoop "Q" subList3 = some none :=
  isomorphism_entry_bounds 5 ⟨[]⟩ (-1) ⟨⟨[]⟩, 0, 0⟩ hostLoop "Q" subList3
    (Or.inl (by decide)) (by decide)

/-! ## C5: termination of findCandidates -/

/-- On (hostCyc, subCyc) the pair (Y, A) recurses into itself with the
candidate table unchanged: A is the entry and is already recorded, so
nothing is added and the cycle guard never fires; the walk exhausts any
amount of fuel. -/
theorem findCand_cyc_inner (f : Nat) :
    findCandF hostCyc subCyc f nodeYC nodeAC cInit = none := by
  induction f with
  | zero => rfl
  | succ f ih =>
    have h1 : findCandF hostCyc subCyc (f + 1) nodeYC nodeAC cInit =
        (findCandF hostCyc subCyc f nodeYC nodeAC cInit).bind
          (fun c' => candPairs hostCyc subCyc (findCandF hostCyc subCyc f)
            [("A", "Z"), ("B", "Y"), ("B", "Z")] c') := rfl
    rw [h1, ih, Option.none_bind]

/-- The walk started by Candidates on (hostCyc, subCyc) records the
entry pair and then reaches (Y, A), so it runs out of any fuel. -/
theorem findCand_cyc_top (f : Nat) :
    findCandF hostCyc subCyc f nodeXC nodeAC [] = none := by
  match f with
  | 0 => rfl
  | 1 => rfl
  | f + 2 =>
    have h1 : findCandF hostCyc subCyc (f + 2) nodeXC nodeAC [] =
        (findCandF hostCyc subCyc (f + 1) nodeXC nodeAC cInit).bind
          (fun c' => candPairs hostCyc subCyc (findCandF hostCyc subCyc (f + 1))
            [("A", "Y"), ("B", "X"), ("B", "Y")] c') := rfl
    have h2 : findCandF hostCyc subCyc (f + 1) nodeXC nodeAC cInit = some cInit := rfl
    have h3 : candPairs hostCyc subCyc (findCandF hostCyc subCyc (f + 1))
        [("A", "Y"), ("B", "X"), ("B", "Y")] cInit =
        (findCandF hostCyc subCyc (f + 1) nodeYC nodeAC cInit).bind
          (fun c' => candPairs hostCyc subCyc (findCandF hostCyc subCyc (f + 1))
            [("B", "X"), ("B", "Y")] c') := rfl
    rw [h1, h2, Option.some_bind, h3, findCand_cyc_inner, Option.none_bind]

/-- C5: the claim fails on the cited code. findCandidates does not
terminate on every input: on hostCyc and subCyc (a subgraph whose entry
carries a back-edge) the pair (Y, A) is explored again and again with
the table unchanged, because the entry node is recorded only once and a
pair absent from C[A] never trips the cycle guard. For every fuel bound
the embedded Candidates runs out of fuel, so the recursion never
returns. -/
theorem candidates_diverges_on_entry_backedge (fuel : Nat) :
    Candidates fuel hostCyc "X" subCyc = none := by
  show (match findCandF hostCyc subCyc fuel nodeXC nodeAC [] with
    | none => none
    | some c =>
      if c.length != subCyc.toGraph.nodes.length then
        some (Except.error (CandErr.incomplete subCyc.toGraph.nodes.length c.length))
      else some (Except.ok (Equation.mk c []))) = none
  rw [findCand_cyc_top]

/-! ## C3: error cases of Candidates -/

/-- C3: whenever the candidate walk returns, Candidates returns an
error exactly when the entry name does not resolve in the host, the
subgraph entry does not resolve in the subgraph, the host entry fails
the isPotential test (the error reporting expected versus actual
successor counts), or the walk leaves the candidate table with a number
of keys different from the subgraph node count (the error reporting
expected versus actual counts); in every other case an equation is
returned. -/
theorem candidates_error_cases (fuel : Nat) (host : Graph) (entry : String)
    (sub : SubGraph) (r : Except CandErr Equation)
    (hr : Candidates fuel host entry sub = some r) :
    CandidatesContract fuel host entry sub r := by
  unfold Candidates at hr
  unfold CandidatesContract
  split at hr
  next hg =>
    injection hr with h
    exact Or.inl ⟨hg, h.symm⟩
  next g hg =>
    split at hr
    next hs =>
      injection hr with h
      exact Or.inr (Or.inl ⟨g, hg, hs, h.symm⟩)
    next s hs =>
      split at hr
      next hp =>
        injection hr with h
        refine Or.inr (Or.inr (Or.inl ⟨g, s, hg, hs, ?_, h.symm⟩))
        simpa using hp
      next hp =>
        have hp' : isPotential g s sub = true := by
          simpa using hp
        split at hr
        · exact absurd hr (by simp)
        next c hc =>
          split at hr
          next hlen =>
            injection hr with h
            refine Or.inr (Or.inr (Or.inr (Or.inl ⟨g, s, c, hg, hs, hp', hc, ?_, h.symm⟩)))
            simpa using hlen
          next hlen =>
            injection hr with h
            refine Or.inr (Or.inr (Or.inr (Or.inr ⟨g, s, c, hg, hs, hp', hc, ?_, h.symm⟩)))
            simpa using hlen

/-- Witness for C3: on the single-node host the entry name Q does not
resolve, and Candidates returns the entry-missing error. -/
theorem candidates_error_cases_witness :
    CandidatesContract 5 hostLoop "Q" subList3 (.error (.entryMissing "Q")) :=
  candidates_error_cases 5 hostLoop "Q" subList3 (.error (.entryMissing "Q")) rfl

/-! ## Association-list lemmas -/

theorem lookupM_nil {κ α : Type} [BEq κ] (k : κ) :
    lookupM ([] : List (κ × α)) k = none := rfl

theorem lookupM_cons {κ α : Type} [BEq κ] (k' : κ) (v : α)
    (rest : List (κ × α)) (k : κ) :
    lookupM ((k', v) :: rest) k =
      if k' == k then some v else lookupM rest k := by
  by_cases h : (k' == k) = true
  · simp [lookupM, List.find?_cons_of_pos, h]
  · simp only [Bool.not_eq_true] at h
    simp [lookupM, List.find?_cons_of_neg, h]

theorem lookupM_insert_self (m : List (String × String)) (k v : String) :
    lookupM (insertM m k v) k = some v := by
  induction m with
  | nil => simp [insertM, lookupM_cons]
  | cons p rest ih =>
    obtain ⟨k', v'⟩ := p
    by_cases h : (k' == k) = true
    · simp [insertM, h, lookupM_cons]
    · simp [insertM, h, lookupM_cons, ih]

theorem lookupM_eq_none_iff {α : Type} (m : List (String × α)) (k : String) :
    lookupM m k = none ↔ k ∉ keysM m := by
  induction m with
  | nil => simp [lookupM_nil, keysM]
  | cons p rest ih =>
    obtain ⟨k', v'⟩ := p
    by_cases h : k' = k
    · subst h
      simp [lookupM_cons, keysM]
    · simp [lookupM_cons, h, keysM, ih, Ne.symm h]

theorem lookupM_erase_other {α : Type} (m : List (String × α)) (k k' : String)
    (h : k' ≠ k) : lookupM (eraseM m k) k' = lookupM m k' := by
  induction m with
  | nil => simp [eraseM]
  | cons p rest ih =>
    obtain ⟨k₀, v₀⟩ := p
    by_cases h₀ : (k₀ == k) = true
    · have hkk' : (k₀ == k') = false := by
        simp only [beq_iff_eq] at h₀
        simp only [beq_eq_false_iff_ne]
        exact fun hc => h (hc.symm.trans h₀)
      simp [eraseM, h₀, lookupM_cons, hkk']
    · simp [eraseM, h₀, lookupM_cons, ih]

theorem keysM_eraseM {α : Type} (m : List (String × α)) (k : String) :
    keysM (eraseM m k) = (keysM m).erase k := by
  induction m with
  | nil => simp [eraseM, keysM]
  | cons p rest ih =>
    obtain ⟨k₀, v₀⟩ := p
    by_cases h₀ : (k₀ == k) = true
    · simp [eraseM, h₀, keysM, List.erase_cons, beq_iff_eq.mp h₀]
    · have hne : ¬(k₀ = k) := by simpa using h₀
      simp only [eraseM, h₀, if_false, Bool.false_eq_true, keysM, List.map_cons,
        List.erase_cons, beq_iff_eq, hne, ite_false]
      rw [show List.map Prod.fst (eraseM rest k) = keysM (eraseM rest k) from rfl,
        ih, keysM]

theorem lookupM_map_values {α β : Type} (m : List (String × α)) (f : α → β)
    (k : String) :
    lookupM (m.map (fun p => (p.1, f p.2))) k = (lookupM m k).map f := by
  induction m with
  | nil => simp [lookupM_nil]
  | cons p rest ih =>
    obtain ⟨k₀, v₀⟩ := p
    by_cases h₀ : (k₀ == k) = true
    · simp [lookupM_cons, h₀]
    · simp [lookupM_cons, h₀, ih]

theorem getKey_none_iff (m : List (String × String)) (v : String) :
    getKey m v = none ↔ v ∉ valuesM m := by
  rw [getKey, Option.map_eq_none', List.find?_eq_none]
  simp only [beq_iff_eq, valuesM, List.mem_map, not_exists, not_and]

theorem getKey_some_mem (m : List (String × String)) (v k : String)
    (h : getKey m v = some k) : v ∈ valuesM m := by
  rw [getKey, Option.map_eq_some'] at h
  obtain ⟨p, hp, _⟩ := h
  have hmem := List.mem_of_find?_eq_some hp
  have hval := List.find?_some hp
  simp only [beq_iff_eq] at hval
  exact List.mem_map.mpr ⟨p, hmem, hval⟩

/-! ## Lemmas about the removal loop of SetPair -/

theorem removeCand_keys (l : CMap) (g : String) :
    keysM (removeCand l g).1 = keysM l := by
  induction l with
  | nil => simp [removeCand]
  | cons p rest ih =>
    obtain ⟨k, set⟩ := p
    by_cases hc : ((set.filter (fun x => x != g)).length == 0) = true
    · simp [removeCand, hc, keysM]
    · simp [removeCand, hc, keysM] at ih ⊢
      exact ih

theorem removeCand_none_iff (l : CMap) (g : String) :
    (removeCand l g).2 = none ↔
      ∀ p ∈ l, p.2.filter (fun x => x != g) ≠ [] := by
  induction l with
  | nil => simp [removeCand]
  | cons p rest ih =>
    obtain ⟨k, set⟩ := p
    by_cases hc : ((set.filter (fun x => x != g)).length == 0) = true
    · have hset : set.filter (fun x => x != g) = [] := by
        simpa [List.length_eq_zero] using hc
      have h2 : (removeCand ((k, set) :: rest) g).2 = some k := by
        simp [removeCand, hc]
      rw [h2]
      constructor
      · intro h
        exact Option.noConfusion h
      · intro hall
        exact absurd hset (hall (k, set) (List.mem_cons_self _ _))
    · have hset : set.filter (fun x => x != g) ≠ [] := by
        simpa [List.length_eq_zero] using hc
      have h2 : (removeCand ((k, set) :: rest) g).2 = (removeCand rest g).2 := by
        simp [removeCand, hc]
      rw [h2, ih]
      constructor
      · intro hall p hp
        rcases List.mem_cons.mp hp with h1 | h1
        · rw [h1]; exact hset
        · exact hall p h1
      · intro hall p hp
        exact hall p (List.mem_cons_of_mem _ hp)

theorem removeCand_none_val (l : CMap) (g : String)
    (h : (removeCand l g).2 = none) :
    (removeCand l g).1 = l.map (fun p => (p.1, p.2.filter (fun x => x != g))) := by
  induction l with
  | nil => simp [removeCand]
  | cons p rest ih =>
    obtain ⟨k, set⟩ := p
    by_cases hc : ((set.filter (fun x => x != g)).length == 0) = true
    · simp [removeCand, hc] at h
    · simp [removeCand, hc] at h ⊢
      exact ih h

theorem removeCand_some (l : CMap) (g k : String)
    (h : (removeCand l g).2 = some k) :
    ∃ pre set post, l = pre ++ (k, set) :: post ∧
      set.filter (fun x => x != g) = [] ∧
      (removeCand l g).1 =
        pre.map (fun p => (p.1, p.2.filter (fun x => x != g))) ++ (k, []) :: post ∧
      ∀ p ∈ pre, p.2.filter (fun x => x != g) ≠ [] := by
  induction l with
  | nil => simp [removeCand] at h
  | cons p rest ih =>
    obtain ⟨k₀, set₀⟩ := p
    by_cases hc : ((set₀.filter (fun x => x != g)).length == 0) = true
    · have hset : set₀.filter (fun x => x != g) = [] := by
        simpa [List.length_eq_zero] using hc
      simp [removeCand, hc] at h
      exact ⟨[], set₀, rest, by simp [h], hset, by simp [removeCand, hc, hset, h],
        by simp⟩
    · have hset : set₀.filter (fun x => x != g) ≠ [] := by
        simpa [List.length_eq_zero] using hc
      simp [removeCand, hc] at h
      obtain ⟨pre, set, post, hsplit, hempty, hval, hpre⟩ := ih h
      refine ⟨(k₀, set₀) :: pre, set, post, by simp [hsplit], hempty, ?_, ?_⟩
      · simp [removeCand, hc, hval]
      · intro p hp
        rcases List.mem_cons.mp hp with h1 | h2
        · rw [h1]; exact hset
        · exact hpre p h2

/-! ## C4: behaviour of SetPair -/

/-- C4: the claim as stated fails. On eqDupDemo, SetPair(s, g) fails
with the no-candidates error naming a, yet g has not been removed from
the later candidate set of b, so the error case does not remove g from
every remaining candidate set. -/
theorem setPair_counterexample :
    (SetPair eqDupDemo "s" "g").2 = some (.noCandidates "a") ∧
    lookupM (SetPair eqDupDemo "s" "g").1.c "b" = some ["g", "k"] ∧
    "g" ∈ ((lookupM (SetPair eqDupDemo "s" "g").1.c "b").getD []) := by decide

/-- C4 (amended): SetPair fails with the duplicate-target error exactly
when g is already in the range of M, in which case the equation is
unchanged; otherwise it records s in M, deletes s from C, and removes g
from the remaining candidate sets in iteration order, failing exactly
when some remaining set becomes empty (sets after the first emptied one
keep g); when no set becomes empty, g is removed from every remaining
candidate set. -/
theorem setPair_amended (eq : Equation) (s g : String)
    (hk : (keysM eq.c).Nodup) :
    ((∃ key, (SetPair eq s g).2 = some (.duplicateTarget key s g)) ↔
      g ∈ valuesM eq.m) ∧
    (g ∈ valuesM eq.m → (SetPair eq s g).1 = eq) ∧
    (g ∉ valuesM eq.m →
      (SetPair eq s g).1.m = insertM eq.m s g ∧
      lookupM (SetPair eq s g).1.c s = none ∧
      ((SetPair eq s g).2 = none ↔
        ∀ p ∈ eraseM eq.c s, p.2.filter (fun x => x != g) ≠ []) ∧
      ((SetPair eq s g).2 = none →
        ∀ k, k ≠ s →
          lookupM (SetPair eq s g).1.c k =
            (lookupM eq.c k).map (fun set => set.filter (fun x => x != g)))) := by
  cases hget : getKey eq.m g with
  | some key =>
    have hmem : g ∈ valuesM eq.m := getKey_some_mem eq.m g key hget
    refine ⟨⟨fun _ => hmem, fun _ => ⟨key, ?_⟩⟩, fun _ => ?_, fun hnot => absurd hmem hnot⟩
    · simp [SetPair, hget]
    · simp [SetPair, hget]
  | none =>
    have hnot : g ∉ valuesM eq.m := (getKey_none_iff eq.m g).mp hget
    have hc2 : (SetPair eq s g).2 =
        (removeCand (eraseM eq.c s) g).2.map .noCandidates := by
      simp [SetPair, hget]
    have hc1 : (SetPair eq s g).1 =
        ⟨(removeCand (eraseM eq.c s) g).1, insertM eq.m s g⟩ := by
      simp [SetPair, hget]
    refine ⟨⟨?_, fun hmem => absurd hmem hnot⟩, fun hmem => absurd hmem hnot,
      fun _ => ⟨by rw [hc1], ?_, ?_, ?_⟩⟩
    · rintro ⟨key, hkey⟩
      rw [hc2] at hkey
      cases hr : (removeCand (eraseM eq.c s) g).2 with
      | none => rw [hr] at hkey; simp at hkey
      | some k => rw [hr] at hkey; simp at hkey
    · rw [hc1]
      apply (lookupM_eq_none_iff _ _).mpr
      rw [removeCand_keys, keysM_eraseM]
      exact hk.not_mem_erase
    · rw [hc2, Option.map_eq_none']
      exact removeCand_none_iff (eraseM eq.c s) g
    · intro hnone k hks
      rw [hc2, Option.map_eq_none'] at hnone
      rw [hc1]
      show lookupM (removeCand (eraseM eq.c s) g).1 k = _
      rw [removeCand_none_val _ _ hnone, lookupM_map_values,
        lookupM_erase_other _ _ _ hks]

/-- Witness for C4 (amended): on a one-entry table with no duplicate
target, SetPair records the pair in M. -/
theorem setPair_amended_witness :
    (SetPair ⟨[("a", ["g", "x"])], [("p", "q")]⟩ "s" "g").1.m =
      insertM [("p", "q")] "s" "g" :=
  ((setPair_amended ⟨[("a", ["g", "x"])], [("p", "q")]⟩ "s" "g"
    (by decide)).2.2 (by decide)).1

/-! ## C9: mutation persists when SetPair fails -/

/-- C9: when SetPair fails with the no-candidates error naming k, the
equation has already been mutated: M contains s mapped to g, s is gone
from C, every candidate set before the emptied entry of k has had g
removed, the entry of k is empty, and the sets after it are untouched
(so g may survive in them); nothing is restored. -/
theorem setPair_error_keeps_mutation (eq : Equation) (s g k : String)
    (hk : (keysM eq.c).Nodup)
    (h : (SetPair eq s g).2 = some (.noCandidates k)) :
    lookupM (SetPair eq s g).1.m s = some g ∧
    lookupM (SetPair eq s g).1.c s = none ∧
    ∃ pre set post,
      eraseM eq.c s = pre ++ (k, set) :: post ∧
      set.filter (fun x => x != g) = [] ∧
      (SetPair eq s g).1.c =
        pre.map (fun p => (p.1, p.2.filter (fun x => x != g))) ++ (k, []) :: post ∧
      ∀ p ∈ pre, p.2.filter (fun x => x != g) ≠ [] := by
  cases hget : getKey eq.m g with
  | some key =>
    rw [SetPair] at h
    rw [hget] at h
    simp at h
  | none =>
    have hc2 : (SetPair eq s g).2 =
        (removeCand (eraseM eq.c s) g).2.map .noCandidates := by
      simp [SetPair, hget]
    have hc1 : (SetPair eq s g).1 =
        ⟨(removeCand (eraseM eq.c s) g).1, insertM eq.m s g⟩ := by
      simp [SetPair, hget]
    rw [hc2] at h
    have hr : (removeCand (eraseM eq.c s) g).2 = some k := by
      cases hr : (removeCand (eraseM eq.c s) g).2 with
      | none => rw [hr] at h; simp at h
      | some k' =>
        rw [hr] at h
        simp only [Option.map_some'] at h
        injection h with h'
        injection h' with h''
        rw [h'']
    refine ⟨?_, ?_, ?_⟩
    · rw [hc1]
      exact lookupM_insert_self eq.m s g
    · rw [hc1]
      apply (lookupM_eq_none_iff _ _).mpr
      rw [removeCand_keys, keysM_eraseM]
      exact hk.not_mem_erase
    · obtain ⟨pre, set, post, hsplit, hempty, hval, hpre⟩ :=
        removeCand_some (eraseM eq.c s) g k hr
      exact ⟨pre, set, post, hsplit, hempty, by rw [hc1]; exact hval, hpre⟩

/-- Witness for C9 on eqDupDemo: SetPair(s, g) fails naming a, M holds
the new pair, s is gone from C, and the set of b after the emptied
entry of a is untouched. -/
theorem setPair_error_keeps_mutation_witness :
    lookupM (SetPair eqDupDemo "s" "g").1.m "s" = some "g" ∧
    lookupM (SetPair eqDupDemo "s" "g").1.c "s" = none ∧
    ∃ pre set post,
      eraseM eqDupDemo.c "s" = pre ++ ("a", set) :: post ∧
      set.filter (fun x => x != "g") = [] ∧
      (SetPair eqDupDemo "s" "g").1.c =
        pre.map (fun p => (p.1, p.2.filter (fun x => x != "g"))) ++ ("a", []) :: post ∧
      ∀ p ∈ pre, p.2.filter (fun x => x != "g") ≠ [] :=
  setPair_error_keeps_mutation eqDupDemo "s" "g" "a" (by decide) (by decide)

/-! ## C6: the easiest branch point -/

theorem easiestGo_isSome (l : CMap) (a : Nat × String) :
    ∃ r, easiestGo l (some a) = some r := by
  induction l generalizing a with
  | nil => exact ⟨a, rfl⟩
  | cons p rest ih =>
    obtain ⟨k, set⟩ := p
    obtain ⟨n, k₀⟩ := a
    by_cases h : set.length < n
    · simpa [easiestGo, h] using ih (set.length, k)
    · simpa [easiestGo, h] using ih (n, k₀)

/-- What the scan loop of easiest computes: the result is the size of
the smallest candidate set seen (bounded by the incoming accumulator),
and its key is either the accumulator key (when nothing improves on it)
or the first key of the list achieving the final minimum. -/
theorem easiestGo_spec (l : CMap) (n : Nat) (k : String) (n' : Nat) (k' : String)
    (h : easiestGo l (some (n, k)) = some (n', k')) :
    (n' ≤ n ∧ ∀ p ∈ l, n' ≤ p.2.length) ∧
    ((n' = n ∧ k' = k) ∨
      ∃ pre set post, l = pre ++ (k', set) :: post ∧ set.length = n' ∧ n' < n ∧
        ∀ p ∈ pre, n' < p.2.length) := by
  induction l generalizing n k with
  | nil =>
    simp only [easiestGo, Option.some_inj, Prod.mk.injEq] at h
    exact ⟨⟨le_of_eq h.1.symm, by simp⟩, Or.inl ⟨h.1.symm, h.2.symm⟩⟩
  | cons p rest ih =>
    obtain ⟨k₀, set₀⟩ := p
    by_cases hlt : set₀.length < n
    · have h' : easiestGo rest (some (set₀.length, k₀)) = some (n', k') := by
        simpa [easiestGo, hlt] using h
      obtain ⟨⟨hle, hall⟩, hcases⟩ := ih _ _ h'
      refine ⟨⟨le_of_lt (lt_of_le_of_lt hle hlt), ?_⟩, ?_⟩
      · intro p hp
        rcases List.mem_cons.mp hp with h1 | h1
        · rw [h1]; exact hle
        · exact hall p h1
      rcases hcases with ⟨hn, hk⟩ | ⟨pre, set, post, hsplit, hlen, hplt, hpre⟩
      · refine Or.inr ⟨[], set₀, rest, ?_, hn.symm, hn ▸ hlt, by simp⟩
        rw [hk]
        simp
      · refine Or.inr ⟨(k₀, set₀) :: pre, set, post, by simp [hsplit], hlen,
          lt_trans hplt hlt, ?_⟩
        intro p hp
        rcases List.mem_cons.mp hp with h1 | h1
        · rw [h1]; exact hplt
        · exact hpre p h1
    · have h' : easiestGo rest (some (n, k)) = some (n', k') := by
        simpa [easiestGo, hlt] using h
      obtain ⟨⟨hle, hall⟩, hcases⟩ := ih _ _ h'
      have hn₀ : n ≤ set₀.length := le_of_not_lt hlt
      refine ⟨⟨hle, ?_⟩, ?_⟩
      · intro p hp
        rcases List.mem_cons.mp hp with h1 | h1
        · rw [h1]; exact le_trans hle hn₀
        · exact hall p h1
      rcases hcases with ⟨hn, hk⟩ | ⟨pre, set, post, hsplit, hlen, hplt, hpre⟩
      · exact Or.inl ⟨hn, hk⟩
      · refine Or.inr ⟨(k₀, set₀) :: pre, set, post, by simp [hsplit], hlen, hplt, ?_⟩
        intro p hp
        rcases List.mem_cons.mp hp with h1 | h1
        · rw [h1]; exact lt_of_lt_of_le hplt hn₀
        · exact hpre p h1

theorem lookupM_of_split {α : Type} (pre post : List (String × α)) (k : String)
    (v : α) (hk : (keysM (pre ++ (k, v) :: post)).Nodup) :
    lookupM (pre ++ (k, v) :: post) k = some v := by
  induction pre with
  | nil => simp [lookupM_cons]
  | cons p pre' ih =>
    obtain ⟨k₀, v₀⟩ := p
    have hkeys : keysM ((k₀, v₀) :: (pre' ++ (k, v) :: post)) =
        k₀ :: keysM (pre' ++ (k, v) :: post) := by simp [keysM]
    rw [List.cons_append, hkeys] at hk
    obtain ⟨hnot, hk'⟩ := List.nodup_cons.mp hk
    have hkmem : k ∈ keysM (pre' ++ (k, v) :: post) := by simp [keysM]
    have hne : k₀ ≠ k := fun hc => hnot (hc ▸ hkmem)
    have hcond : ¬((k₀ == k) = true) := by simp [hne]
    rw [List.cons_append, lookupM_cons, if_neg hcond]
    exact ih hk'

/-- C6: the claim as stated fails. On the table holding the single key
a with one candidate, easiest returns the too-few-candidates error even
though C is not empty: the source also fails whenever the smallest set
has fewer than two candidates. -/
theorem easiest_counterexample :
    easiest [("a", ["x"])] = .error (.tooFewCandidates 1) ∧
    ([("a", ["x"])] : CMap) ≠ [] :=
  ⟨rfl, by decide⟩

/-- C6 (amended): easiest fails exactly when C is empty or the smallest
candidate set has fewer than two candidates; on success it returns the
first key in iteration order whose candidate set has the smallest
size. -/
theorem easiest_amended (c : CMap) (hk : (keysM c).Nodup) :
    ((∃ e, easiest c = .error e) ↔ c = [] ∨ ∃ p ∈ c, p.2.length < 2) ∧
    (∀ k, easiest c = .ok k →
      ∃ set, lookupM c k = some set ∧ 2 ≤ set.length ∧
        (∀ p ∈ c, set.length ≤ p.2.length) ∧
        ∃ pre post, c = pre ++ (k, set) :: post ∧
          ∀ p ∈ pre, set.length < p.2.length) := by
  cases c with
  | nil =>
    constructor
    · simp [easiest, easiestGo]
    · intro k h
      exact absurd h (by simp [easiest, easiestGo])
  | cons p rest =>
    obtain ⟨k₀, set₀⟩ := p
    obtain ⟨⟨min, best⟩, hgo⟩ := easiestGo_isSome rest (set₀.length, k₀)
    have hgo' : easiestGo ((k₀, set₀) :: rest) none = some (min, best) := by
      simpa [easiestGo] using hgo
    obtain ⟨⟨hle, hall⟩, hcases⟩ := easiestGo_spec rest set₀.length k₀ min best hgo
    have hmem : ∃ p ∈ (k₀, set₀) :: rest, p.2.length = min := by
      rcases hcases with ⟨hn, -⟩ | ⟨pre, set, post, hsplit, hlen, -, -⟩
      · exact ⟨(k₀, set₀), List.mem_cons_self _ _, hn.symm⟩
      · exact ⟨(best, set), by rw [hsplit]; simp, hlen⟩
    have hallc : ∀ p ∈ (k₀, set₀) :: rest, min ≤ p.2.length := by
      intro p hp
      rcases List.mem_cons.mp hp with h1 | h1
      · rw [h1]; exact hle
      · exact hall p h1
    have heas : easiest ((k₀, set₀) :: rest) =
        if (min : Int) < 2 then .error (.tooFewCandidates min) else .ok best := by
      rw [easiest, hgo']
    constructor
    · constructor
      · rintro ⟨e, he⟩
        rw [heas] at he
        by_cases hmin : (min : Int) < 2
        · obtain ⟨p, hp, hpmin⟩ := hmem
          refine Or.inr ⟨p, hp, ?_⟩
          rw [hpmin]
          exact_mod_cast hmin
        · rw [if_neg hmin] at he
          exact Except.noConfusion he
      · rintro (hnil | ⟨p, hp, hplen⟩)
        · exact absurd hnil (by simp)
        · have hmin : min < 2 := lt_of_le_of_lt (hallc p hp) hplen
          refine ⟨.tooFewCandidates min, ?_⟩
          rw [heas, if_pos (by exact_mod_cast hmin)]
    · intro k hok
      rw [heas] at hok
      by_cases hmin : (min : Int) < 2
      · rw [if_pos hmin] at hok
        exact Except.noConfusion hok
      · rw [if_neg hmin] at hok
        injection hok with hbest
        have hmin2 : 2 ≤ min := by omega
        rw [← hbest]
        rcases hcases with ⟨hn, hk'⟩ | ⟨pre, set, post, hsplit, hlen, hlt, hpre⟩
        · rw [hk']
          refine ⟨set₀, ?_, by omega, ?_, [], rest, by simp, by simp⟩
          · rw [lookupM_cons]
            simp
          · intro p hp
            have := hallc p hp
            omega
        · have hc : (k₀, set₀) :: rest = ((k₀, set₀) :: pre) ++ (best, set) :: post := by
            simp [hsplit]
          refine ⟨set, ?_, by omega, ?_, (k₀, set₀) :: pre, post, hc, ?_⟩
          · rw [hc] at hk ⊢
            exact lookupM_of_split _ _ _ _ hk
          · intro p hp
            have := hallc p hp
            omega
          · intro p hp
            rcases List.mem_cons.mp hp with h1 | h1
            · rw [h1]
              simp only []
              omega
            · have := hpre p h1
              omega

/-- Witness for C6 (amended) on a three-entry table whose smallest set
is at key b: easiest returns b together with the minimality facts. -/
theorem easiest_amended_witness :
    ∃ set, lookupM [("a", ["x", "y", "z"]), ("b", ["u", "v"]),
        ("c", ["p", "q", "r"])] "b" = some set ∧ 2 ≤ set.length ∧
      (∀ p ∈ ([("a", ["x", "y", "z"]), ("b", ["u", "v"]),
        ("c", ["p", "q", "r"])] : CMap), set.length ≤ p.2.length) ∧
      ∃ pre post, ([("a", ["x", "y", "z"]), ("b", ["u", "v"]),
          ("c", ["p", "q", "r"])] : CMap) = pre ++ ("b", set) :: post ∧
        ∀ p ∈ pre, set.length < p.2.length :=
  (easiest_amended [("a", ["x", "y", "z"]), ("b", ["u", "v"]),
    ("c", ["p", "q", "r"])] (by decide)).2 "b" rfl

/-! ## C10: pop and SolveUnique -/

theorem solveUniqueGo_ok (eq : Equation) (l : CMap) :
    ∃ v, solveUniqueGo eq l = .ok v := by
  induction l with
  | nil => exact ⟨(false, eq, none), rfl⟩
  | cons p rest ih =>
    obtain ⟨k, set⟩ := p
    by_cases h : (set.length == 1) = true
    · obtain ⟨a, ha⟩ := List.length_eq_one.mp (by simpa using h)
      subst ha
      cases hsp : (SetPair eq k a).2 with
      | some err =>
        exact ⟨(false, (SetPair eq k a).1, some err),
          by simp [solveUniqueGo, pop, hsp]⟩
      | none =>
        exact ⟨(true, (SetPair eq k a).1, none),
          by simp [solveUniqueGo, pop, hsp]⟩
    · simpa [solveUniqueGo, h] using ih

/-- C10: pop panics exactly when its set does not hold exactly one key,
and SolveUnique never reaches a panic of pop: it calls pop only on sets
of size one, so every equation yields an ordinary result. -/
theorem pop_panics_unreachable_from_solveUnique :
    (∀ set : List String, (∃ p, pop set = .error p) ↔ set.length ≠ 1) ∧
    (∀ eq : Equation, ∃ v, SolveUnique eq = .ok v) := by
  constructor
  · intro set
    constructor
    · rintro ⟨p, hp⟩ hlen
      obtain ⟨a, ha⟩ := List.length_eq_one.mp hlen
      subst ha
      rw [pop] at hp
      simp at hp
    · intro hlen
      exact ⟨.invalidLen set.length, by simp [pop, hlen]⟩
  · intro eq
    exact solveUniqueGo_ok eq eq.c

/-! ## C7: the search driver -/

theorem searchGo_none_match (fuel : Nat) (host : Graph) (sub : SubGraph)
    (l : List Node) :
    searchGo fuel host sub l = some none ↔
      ∀ n ∈ l, IsomorphismN fuel host n.name sub = some none := by
  induction l with
  | nil => simp [searchGo]
  | cons nd rest ih =>
    cases hiso : IsomorphismN fuel host nd.name sub with
    | none =>
      have hL : searchGo fuel host sub (nd :: rest) = none := by
        rw [searchGo, hiso]
      rw [hL]
      constructor
      · intro h
        exact Option.noConfusion h
      · intro hall
        have h := hall nd (List.mem_cons_self _ _)
        rw [hiso] at h
        exact Option.noConfusion h
    | some r =>
      cases r with
      | none =>
        have hL : searchGo fuel host sub (nd :: rest) = searchGo fuel host sub rest := by
          rw [searchGo, hiso]
        rw [hL, ih]
        constructor
        · intro hall p hp
          rcases List.mem_cons.mp hp with h1 | h1
          · rw [h1]; exact hiso
          · exact hall p h1
        · intro hall p hp
          exact hall p (List.mem_cons_of_mem _ hp)
      | some m' =>
        have hL : searchGo fuel host sub (nd :: rest) = some (some m') := by
          rw [searchGo, hiso]
        rw [hL]
        constructor
        · intro h
          exact absurd h (by simp)
        · intro hall
          have h := hall nd (List.mem_cons_self _ _)
          rw [hiso] at h
          exact absurd h (by simp)

theorem searchGo_first_match (fuel : Nat) (host : Graph) (sub : SubGraph)
    (l : List Node) (m : List (String × String)) :
    searchGo fuel host sub l = some (some m) ↔
      ∃ pre n post, l = pre ++ n :: post ∧
        IsomorphismN fuel host n.name sub = some (some m) ∧
        ∀ n' ∈ pre, IsomorphismN fuel host n'.name sub = some none := by
  induction l with
  | nil =>
    constructor
    · intro h
      exact absurd h (by simp [searchGo])
    · rintro ⟨pre, n, post, hsplit, -, -⟩
      exact absurd hsplit (by simp)
  | cons nd rest ih =>
    cases hiso : IsomorphismN fuel host nd.name sub with
    | none =>
      have hL : searchGo fuel host sub (nd :: rest) = none := by
        rw [searchGo, hiso]
      rw [hL]
      constructor
      · intro h
        exact Option.noConfusion h
      · rintro ⟨pre, n, post, hsplit, hn, hpre⟩
        cases pre with
        | nil =>
          simp only [List.nil_append] at hsplit
          injection hsplit with h1 h2
          rw [← h1, hiso] at hn
          exact Option.noConfusion hn
        | cons p pre' =>
          simp only [List.cons_append] at hsplit
          injection hsplit with h1 h2
          have hp := hpre p (List.mem_cons_self _ _)
          rw [← h1, hiso] at hp
          exact Option.noConfusion hp
    | some r =>
      cases r with
      | some m' =>
        have hL : searchGo fuel host sub (nd :: rest) = some (some m') := by
          rw [searchGo, hiso]
        rw [hL]
        constructor
        · intro h
          have hm : m' = m := by simpa using h
          exact ⟨[], nd, rest, by simp, by rw [hiso, hm], by simp⟩
        · rintro ⟨pre, n, post, hsplit, hn, hpre⟩
          cases pre with
          | nil =>
            simp only [List.nil_append] at hsplit
            injection hsplit with h1 h2
            rw [← h1, hiso] at hn
            exact hn
          | cons p pre' =>
            simp only [List.cons_append] at hsplit
            injection hsplit with h1 h2
            have hp := hpre p (List.mem_cons_self _ _)
            rw [← h1, hiso] at hp
            exact absurd hp (by simp)
      | none =>
        have hL : searchGo fuel host sub (nd :: rest) = searchGo fuel host sub rest := by
          rw [searchGo, hiso]
        rw [hL, ih]
        constructor
        · rintro ⟨pre, n, post, hsplit, hn, hpre⟩
          refine ⟨nd :: pre, n, post, by rw [List.cons_append, hsplit], hn, ?_⟩
          intro n' hn'
          rcases List.mem_cons.mp hn' with h1 | h1
          · rw [h1]; exact hiso
          · exact hpre n' h1
        · rintro ⟨pre, n, post, hsplit, hn, hpre⟩
          cases pre with
          | nil =>
            simp only [List.nil_append] at hsplit
            injection hsplit with h1 h2
            rw [← h1, hiso] at hn
            exact absurd hn (by simp)
          | cons p pre' =>
            simp only [List.cons_append] at hsplit
            injection hsplit with h1 h2
            exact ⟨pre', n, post, h2, hn, fun n' h => hpre n' (List.mem_cons_of_mem _ h)⟩

/-- C7: Search iterates the host nodes in their stable stored order and
invokes the name-based Isomorphism on each node name: it returns a
mapping exactly when some node yields it while every earlier node
fails, and it returns the no-match result exactly when every host node
fails; being a function of its input, the first-match result is
deterministic. -/
theorem search_first_match (fuel : Nat) (host : Graph) (sub : SubGraph) :
    (∀ m, SearchF fuel host sub = some (some m) ↔
      ∃ pre n post, host.nodes = pre ++ n :: post ∧
        IsomorphismN fuel host n.name sub = some (some m) ∧
        ∀ n' ∈ pre, IsomorphismN fuel host n'.name sub = some none) ∧
    (SearchF fuel host sub = some none ↔
      ∀ n ∈ host.nodes, IsomorphismN fuel host n.name sub = some none) :=
  ⟨fun m => searchGo_first_match fuel host sub host.nodes m,
   searchGo_none_match fuel host sub host.nodes⟩

/-! ## C2: the validator against its specification -/

theorem hasDup_eq_false_iff (m : List (String × String)) :
    hasDup m = false ↔ (valuesM m).Nodup := by
  induction m with
  | nil => simp [hasDup, valuesM]
  | cons p rest ih =>
    obtain ⟨k, v⟩ := p
    rw [show valuesM ((k, v) :: rest) = v :: valuesM rest from rfl, List.nodup_cons]
    simp only [hasDup, Bool.or_eq_false_iff, ih]
    constructor
    · rintro ⟨h1, h2⟩
      refine ⟨?_, h2⟩
      intro hmem
      obtain ⟨q, hq, hqv⟩ := List.mem_map.mp hmem
      have hfalse := (List.any_eq_false.mp h1) q hq
      simp [hqv] at hfalse
    · rintro ⟨h1, h2⟩
      refine ⟨?_, h2⟩
      rw [List.any_eq_false]
      intro q hq
      simp only [beq_iff_eq]
      intro hqv
      exact h1 (List.mem_map.mpr ⟨q, hq, hqv⟩)

theorem lookup_name_eq (g : Graph) (k : String) (n : Node)
    (h : g.lookup k = some n) : n.name = k ∧ n ∈ g.nodes := by
  unfold Graph.lookup at h
  have h1 := List.find?_some h
  have h2 := List.mem_of_find?_eq_some h
  simp only [beq_iff_eq] at h1
  exact ⟨h1, h2⟩

theorem lookup_isSome_of_mem_names (g : Graph) (k : String)
    (h : k ∈ g.nodes.map Node.name) : ∃ n, g.lookup k = some n := by
  obtain ⟨nd, hnd, hname⟩ := List.mem_map.mp h
  have hex : ∃ x ∈ g.nodes, (x.name == k) = true := ⟨nd, hnd, by simp [hname]⟩
  obtain ⟨r, hr⟩ := Option.isSome_iff_exists.mp (List.find?_isSome.mpr hex)
  exact ⟨r, hr⟩

theorem lookupM_of_mem_nodup (m : List (String × String)) (p : String × String)
    (hm : (keysM m).Nodup) (hp : p ∈ m) : lookupM m p.1 = some p.2 := by
  induction m with
  | nil => cases hp
  | cons q rest ih =>
    obtain ⟨k, v⟩ := q
    rw [show keysM ((k, v) :: rest) = k :: keysM rest from rfl] at hm
    obtain ⟨hnot, hm'⟩ := List.nodup_cons.mp hm
    rcases List.mem_cons.mp hp with h1 | h1
    · rw [h1, lookupM_cons]
      simp
    · have hne : k ≠ p.1 := by
        intro hc
        apply hnot
        rw [hc]
        exact List.mem_map.mpr ⟨p, h1, rfl⟩
      rw [lookupM_cons, if_neg (by simp [hne])]
      exact ih hm' h1

theorem keys_mem_iff_names (m : List (String × String)) (names : List String)
    (hm : (keysM m).Nodup) (hlen : (keysM m).length = names.length)
    (hsubset : ∀ k ∈ keysM m, k ∈ names) :
    ∀ x, x ∈ keysM m ↔ x ∈ names := by
  have hsp := List.subperm_of_subset hm hsubset
  have hperm : List.Perm (keysM m) names :=
    hsp.perm_of_length_le (le_of_eq hlen.symm)
  exact fun x => hperm.mem_iff

theorem checkPreds_iff (m : List (String × String)) (s g : Node) :
    checkPreds m s g = true ↔
      (s.preds.length = g.preds.length ∧
        ∀ sp ∈ s.preds, ∃ gp ∈ g.preds, gp = lookupD m sp) := by
  simp [checkPreds, List.all_eq_true, List.any_eq_true, beq_iff_eq]

theorem checkSuccs_iff (m : List (String × String)) (s g : Node) :
    checkSuccs m s g = true ↔
      (s.succs.length = g.succs.length ∧
        ∀ ss ∈ s.succs, ∃ gs ∈ g.succs, gs = lookupD m ss) := by
  simp [checkSuccs, List.all_eq_true, List.any_eq_true, beq_iff_eq]

/-- The per-pair body of the validator agrees with the per-pair clause
of the specification, provided the keys of the mapping are exactly the
subgraph node names and the subgraph is well-formed. -/
theorem validAt_iff (host : Graph) (sub : SubGraph) (m : List (String × String))
    (p : String × String) (hp : p ∈ m) (hm : (keysM m).Nodup)
    (hkeys : ∀ x, x ∈ keysM m ↔ x ∈ sub.toGraph.nodes.map Node.name)
    (hsub : sub.toGraph.WF) :
    validAt host sub m p.1 = true ↔
      (∃ s, sub.toGraph.lookup p.1 = some s ∧
        ∃ g, host.lookup p.2 = some g ∧
          (p.1 ≠ sub.entry → s.preds.length = g.preds.length ∧
            ∀ sp ∈ s.preds, ∃ gp ∈ g.preds, lookupM m sp = some gp) ∧
          (p.1 ≠ sub.exit → s.succs.length = g.succs.length ∧
            ∀ ss ∈ s.succs, ∃ gs ∈ g.succs, lookupM m ss = some gs)) := by
  have hlookup : lookupM m p.1 = some p.2 := lookupM_of_mem_nodup m p hm hp
  have hD : lookupD m p.1 = p.2 := by simp [lookupD, hlookup]
  unfold validAt
  cases hs : sub.toGraph.lookup p.1 with
  | none => simp
  | some s =>
    obtain ⟨hsname, hsmem⟩ := lookup_name_eq _ _ _ hs
    rw [hD]
    cases hg : host.lookup p.2 with
    | none => simp
    | some g =>
      have hlookupSome : ∀ x ∈ sub.toGraph.nodes.map Node.name,
          ∃ v, lookupM m x = some v := by
        intro x hx
        cases hlx : lookupM m x with
        | none =>
          have := (lookupM_eq_none_iff m x).mp hlx
          exact absurd ((hkeys x).mpr hx) this
        | some v => exact ⟨v, rfl⟩
      have hpredIff : (∀ sp ∈ s.preds, ∃ gp ∈ g.preds, gp = lookupD m sp) ↔
          (∀ sp ∈ s.preds, ∃ gp ∈ g.preds, lookupM m sp = some gp) := by
        apply forall₂_congr
        intro sp hsp
        have hspnames : sp ∈ sub.toGraph.nodes.map Node.name := by
          obtain ⟨n', hn', hname⟩ := hsub.2.1 s hsmem sp hsp
          exact List.mem_map.mpr ⟨n', hn', hname⟩
        obtain ⟨v, hv⟩ := hlookupSome sp hspnames
        have hDv : lookupD m sp = v := by simp [lookupD, hv]
        rw [hDv, hv]
        apply exists_congr
        intro gp
        constructor
        · rintro ⟨hgp, hgv⟩
          exact ⟨hgp, by rw [hgv]⟩
        · rintro ⟨hgp, hgv⟩
          injection hgv with hveq
          exact ⟨hgp, hveq.symm⟩
      have hsuccIff : (∀ ss ∈ s.succs, ∃ gs ∈ g.succs, gs = lookupD m ss) ↔
          (∀ ss ∈ s.succs, ∃ gs ∈ g.succs, lookupM m ss = some gs) := by
        apply forall₂_congr
        intro ss hss
        have hssnames : ss ∈ sub.toGraph.nodes.map Node.name := by
          obtain ⟨n', hn', hname⟩ := hsub.2.2 s hsmem ss hss
          exact List.mem_map.mpr ⟨n', hn', hname⟩
        obtain ⟨v, hv⟩ := hlookupSome ss hssnames
        have hDv : lookupD m ss = v := by simp [lookupD, hv]
        rw [hDv, hv]
        apply exists_congr
        intro gs
        constructor
        · rintro ⟨hgs, hgv⟩
          exact ⟨hgs, by rw [hgv]⟩
        · rintro ⟨hgs, hgv⟩
          injection hgv with hveq
          exact ⟨hgs, hveq.symm⟩
      rw [Bool.and_eq_true]
      constructor
      · rintro ⟨hpredB, hsuccB⟩
        refine ⟨s, rfl, g, rfl, ?_, ?_⟩
        · intro hne
          have hcond : ¬((s.name == sub.entry) = true) := by
            simp [hsname, hne]
          rw [if_neg hcond] at hpredB
          exact hpredIff.mp ((checkPreds_iff m s g).mp hpredB).2 |>
            (fun hall => ⟨((checkPreds_iff m s g).mp hpredB).1, hall⟩)
        · intro hne
          have hcond : ¬((s.name == sub.exit) = true) := by
            simp [hsname, hne]
          rw [if_neg hcond] at hsuccB
          exact hsuccIff.mp ((checkSuccs_iff m s g).mp hsuccB).2 |>
            (fun hall => ⟨((checkSuccs_iff m s g).mp hsuccB).1, hall⟩)
      · rintro ⟨s', hs', g', hg', hpredP, hsuccP⟩
        injection hs' with hseq
        injection hg' with hgeq
        subst hseq
        subst hgeq
        constructor
        · by_cases hne : p.1 = sub.entry
          · rw [if_pos (by simp [hsname, hne])]
          · rw [if_neg (by simp [hsname, hne])]
            obtain ⟨hlen, hall⟩ := hpredP hne
            exact (checkPreds_iff m s g).mpr ⟨hlen, hpredIff.mpr hall⟩
        · by_cases hne : p.1 = sub.exit
          · rw [if_pos (by simp [hsname, hne])]
          · rw [if_neg (by simp [hsname, hne])]
            obtain ⟨hlen, hall⟩ := hsuccP hne
            exact (checkSuccs_iff m s g).mpr ⟨hlen, hsuccIff.mpr hall⟩

/-- C2: IsValid returns true exactly under the contract the
specification states: the mapping is total on the subgraph nodes, its
range has no duplicates, every name in it resolves, and each mapped
pair passes the predecessor check (skipped for the entry) and the
successor check (skipped for the exit). Stated for mappings with
distinct keys (Go maps cannot hold duplicate keys) over a well-formed
subgraph. -/
theorem isValid_iff_spec (host : Graph) (sub : SubGraph)
    (m : List (String × String)) (hm : (keysM m).Nodup)
    (hsub : sub.toGraph.WF) :
    IsValid host sub m = true ↔ SpecIsValid host sub m := by
  by_cases hlen : m.length = sub.toGraph.nodes.length
  case neg =>
    have hL : IsValid host sub m = false := by
      unfold IsValid
      rw [if_pos (by simp [hlen])]
    rw [hL]
    simp only [Bool.false_eq_true, false_iff]
    rintro ⟨h1, -, -⟩
    exact hlen h1
  case pos =>
    by_cases hdup : hasDup m = true
    · have hL : IsValid host sub m = false := by
        unfold IsValid
        rw [if_neg (by simp [hlen]), if_pos hdup]
      rw [hL]
      simp only [Bool.false_eq_true, false_iff]
      rintro ⟨-, hnodup, -⟩
      rw [← hasDup_eq_false_iff] at hnodup
      rw [hdup] at hnodup
      exact Bool.noConfusion hnodup
    · have hdup' : hasDup m = false := Bool.eq_false_iff.mpr hdup
      have hL : IsValid host sub m =
          ((keysM m).insertionSort (fun a b => strLe a b = true)).all (validAt host sub m) := by
        unfold IsValid
        rw [if_neg (by simp [hlen]), if_neg (by rw [hdup']; exact Bool.false_ne_true)]
      rw [hL, List.all_eq_true]
      have hklen : (keysM m).length = (sub.toGraph.nodes.map Node.name).length := by
        simp [keysM, hlen]
      constructor
      · intro hall
        have hres : ∀ k ∈ keysM m, k ∈ sub.toGraph.nodes.map Node.name := by
          intro k hk
          have hv := hall k ((List.mem_insertionSort (fun a b => strLe a b = true)).mpr hk)
          unfold validAt at hv
          cases hs : sub.toGraph.lookup k with
          | none => rw [hs] at hv; exact Bool.noConfusion hv
          | some s =>
            obtain ⟨hsname, hsmem⟩ := lookup_name_eq _ _ _ hs
            exact List.mem_map.mpr ⟨s, hsmem, hsname⟩
        have hkeys := keys_mem_iff_names m (sub.toGraph.nodes.map Node.name)
          hm hklen hres
        refine ⟨hlen, (hasDup_eq_false_iff m).mp hdup', ?_⟩
        intro p hp
        have hkmem : p.1 ∈ keysM m := List.mem_map.mpr ⟨p, hp, rfl⟩
        have hv := hall p.1 ((List.mem_insertionSort (fun a b => strLe a b = true)).mpr hkmem)
        exact (validAt_iff host sub m p hp hm hkeys hsub).mp hv
      · rintro ⟨-, -, h3⟩
        have hres : ∀ k ∈ keysM m, k ∈ sub.toGraph.nodes.map Node.name := by
          intro k hk
          obtain ⟨p, hp, hpk⟩ :=
            List.mem_map.mp (show k ∈ m.map Prod.fst from hk)
          obtain ⟨s, hs, -⟩ := h3 p hp
          obtain ⟨hsname, hsmem⟩ := lookup_name_eq _ _ _ hs
          rw [← hpk]
          exact List.mem_map.mpr ⟨s, hsmem, hsname⟩
        have hkeys := keys_mem_iff_names m (sub.toGraph.nodes.map Node.name)
          hm hklen hres
        intro k hk
        rw [List.mem_insertionSort (fun a b => strLe a b = true)] at hk
        obtain ⟨p, hp, hpk⟩ :=
          List.mem_map.mp (show k ∈ m.map Prod.fst from hk)
        rw [← hpk]
        exact (validAt_iff host sub m p hp hm hkeys hsub).mpr (h3 p hp)

/-- Witness for C2: the identity mapping on the if_else diamond
satisfies the specification contract, obtained from IsValid through the
equivalence. -/
theorem isValid_iff_spec_witness : SpecIsValid subIf.toGraph subIf mId :=
  (isValid_iff_spec subIf.toGraph subIf mId (by decide)
    (by unfold Graph.WF; decide)).mp (by decide)

end GraphsRepo
